import Mathlib

/-!
# Verification of the SuperSCS accelerated operator-splitting core

The repository ships only documentation (a CasADi demo notebook and SuperSCS
benchmark write-ups); the solver implementation itself is not present.  The
solver components (cone projector, fixed-point operator, acceleration engine,
line search, iteration controller) are therefore modelled from the
specification's component design, and the notebook's own constructions
(the multiple-shooting decision-variable struct and its bound setup) are
embedded from the notebook source.

Vectors of the iterative core are lists of rationals, so that every
controller-level definition is executable; the cone projector, whose contract
is Euclidean projection, is modelled over real Euclidean space.
-/

/-! ## Rational vectors -/

/-- Iterate vectors of the splitting core, as rational lists. -/
abbrev QVec := List ℚ

/-- Componentwise sum (zip; both operands have the iterate dimension). -/
def vadd (a b : QVec) : QVec := List.zipWith (fun x y => x + y) a b

/-- Componentwise difference. -/
def vsub (a b : QVec) : QVec := List.zipWith (fun x y => x - y) a b

/-- Scalar multiple. -/
def vscale (t : ℚ) (a : QVec) : QVec := a.map (fun x => t * x)

/-- Squared Euclidean norm; the merit function is the norm of the
fixed-point residual, and comparisons of norms of rational vectors are made
on squares to stay within exact arithmetic. -/
def sqNorm (a : QVec) : ℚ := (a.map (fun x => x * x)).sum

/-! ## Fixed-Point Operator -/

/-- Modelled from the spec: the solver source is not under `src/`.  One
Douglas–Rachford splitting step (spec §4.2): `u_half = LinearSolve(u)`,
`u_cone = project(2*u_half − u)`, returning the iterate proposal
`R(u) = u − u_half + u_cone` and the fixed-point residual
`FPR(u) = u_half − u_cone`. -/
def fixedPointStep (linSolve : QVec → QVec) (proj : QVec → QVec) (u : QVec) :
    QVec × QVec :=
  let uHalf := linSolve u
  let uCone := proj (vsub (vadd uHalf uHalf) u)
  (vadd (vsub u uHalf) uCone, vsub uHalf uCone)

/-! ## Line Search / Safeguard -/

/-- Trial points of the backtracking search: `u + α·d` for each trial step
size `α`. -/
def trialPoints (u d : QVec) (alphas : List ℚ) : List QVec :=
  alphas.map (fun a => vadd u (vscale a d))

/-- Modelled from the spec: the solver source is not under `src/`.  Inner
trial loop of the line search (spec §4.4).  `F` evaluates the Fixed-Point
Operator at a trial point, returning the iterate proposal and residual, or
`none` on an unrecoverable linear-solver failure.  Result: `none` means
solver failure; `some none` means no trial passed the sufficient-decrease
test; `some (some (t, ft))` is the first passing trial with its residual. -/
def lsLoop (F : QVec → Option (QVec × QVec)) (c m0 : ℚ) (u d : QVec) :
    List ℚ → Option (Option (QVec × QVec))
  | [] => some none
  | a :: rest =>
    match F (vadd u (vscale a d)) with
    | none => none
    | some (_, ft) =>
      if sqNorm ft ≤ c * m0 then some (some (vadd u (vscale a d), ft))
      else lsLoop F c m0 u d rest

/-- Modelled from the spec: the solver source is not under `src/`.
Backtracking line search (spec §4.4): at most `ls` trials; accept the first
trial whose merit (squared residual norm) shows sufficient decrease below
`c` times the squared merit of the residual `f0` at the start of the
iteration, `c` a fixed safeguard constant in (0,1) (stated on squared
merits to stay in exact arithmetic); if no trial passes, the accepted step
is the unmodified plain fixed-point step `uPlain`.  Returns the accepted
iterate with its residual, or `none` on linear-solver failure.
`acceptPlain` is its fallback branch: accept the unmodified plain
fixed-point step, evaluating its residual through the Fixed-Point Operator
oracle `F`. -/
def acceptPlain (F : QVec → Option (QVec × QVec)) (uPlain : QVec) :
    Option (QVec × QVec) :=
  match F uPlain with
  | none => none
  | some r => some (uPlain, r.2)

def lineSearch (F : QVec → Option (QVec × QVec)) (c : ℚ) (ls : ℕ)
    (alphas : List ℚ) (u uPlain d f0 : QVec) : Option (QVec × QVec) :=
  match lsLoop F c (sqNorm f0) u d (alphas.take ls) with
  | none => none
  | some (some acc) => some acc
  | some none => acceptPlain F uPlain

/-- A concrete fixed-point-operator oracle (iterate proposal and residual per
point) used to exercise the line search on explicit inputs. -/
def lsDemoF : QVec → Option (QVec × QVec) := fun v =>
  if v = [1] then some ([0], [7/10])
  else if v = [9] then some ([0], [1/10])
  else some ([0], [1])

/-! ## Settings and Acceleration Engine -/

/-- Acceleration strategy selected by the `direction` option (spec §6):
no acceleration, plain fixed-point-residual, Anderson, or restarted
Broyden. -/
inductive DirectionKind where
  | none
  | fpr
  | anderson
  | broyden
deriving DecidableEq

/-- Modelled from the spec: the solver's settings parser is not under
`src/` (the repository's examples reach it only through an external CVX/
MATLAB bridge).  Per the configuration table (spec §6), the `direction`
option recognizes exactly the values none, fpr, anderson, broyden. -/
def parseDirection (s : String) : Option DirectionKind :=
  if s = "none" then some DirectionKind.none
  else if s = "fpr" then some DirectionKind.fpr
  else if s = "anderson" then some DirectionKind.anderson
  else if s = "broyden" then some DirectionKind.broyden
  else Option.none

/-- Modelled from the spec (§3, §6): immutable per-solve configuration.
`safeguard` is the fixed sufficient-decrease constant in (0,1) and `alphas`
the backtracking step-size sequence; the spec leaves their values as
configurable tuning constants (spec §9). -/
structure Settings where
  eps : ℚ
  memory : ℕ
  direction : DirectionKind
  k0 : ℕ
  ls : ℕ
  maxIters : ℕ
  doSuperScs : Bool
  safeguard : ℚ
  alphas : List ℚ
deriving DecidableEq

/-- Modelled from the spec (§4.5): the Convergence Monitor either continues
or fires one of the residual/certificate-based terminal states SOLVED,
INFEASIBLE, UNBOUNDED — no other state is in its range. -/
inductive MonitorVerdict where
  | go
  | solved
  | infeasible
  | unbounded
deriving DecidableEq

/-- External numerical collaborators of one solve, abstracted: the Linear
System Solver (`none` = unrecoverable failure to factor/solve), the capped
Newton iteration used inside exponential/power-cone projection blocks
(`none` = Newton failed to decrease the residual within its cap), the total
bisection fallback for those blocks, the Anderson and Broyden candidate
computations, the conditioning measure of the small acceleration system
with its numerical floor, the Convergence Monitor, and the deadline
check. -/
structure Oracles where
  linSolve : QVec → Option QVec
  newton : QVec → Option QVec
  bisect : QVec → QVec
  andersonCand : List (QVec × QVec) → QVec → QVec
  broydenCand : List (QVec × QVec) → QVec → QVec
  condMeasure : List (QVec × QVec) → ℚ
  condFloor : ℚ
  monitor : QVec → QVec → MonitorVerdict
  timeUp : ℕ → Bool

/-- Modelled from the spec (§4.1, §7): projection at an exponential/power
block attempts the capped Newton iteration and falls back to bisection when
Newton diverges; the combined projector is total, so cone-projection Newton
divergence is recovered locally and never surfaces as an error. -/
def projectWithRecovery (newton : QVec → Option QVec) (bisect : QVec → QVec)
    (v : QVec) : QVec :=
  match newton v with
  | some w => w
  | none => bisect v

/-- A proposed search direction: either the safeguarded fallback (the
always-well-defined plain fixed-point-residual direction `−FPR`) or a
non-fallback accelerated candidate. -/
inductive ProposedDir where
  | fallback (d : QVec)
  | accelerated (d : QVec)
deriving DecidableEq

/-- The underlying direction vector. -/
def ProposedDir.dir : ProposedDir → QVec
  | fallback d => d
  | accelerated d => d

/-- Whether the proposal is the fallback (non-accelerated) direction. -/
def ProposedDir.isFallback : ProposedDir → Bool
  | fallback _ => true
  | accelerated _ => false

/-- Modelled from the spec (§4.3): the Acceleration Engine proposes a
direction.  The plain fixed-point-residual direction `−FPR` is the
fallback; a non-fallback Anderson/Broyden candidate is proposed only when
acceleration is enabled, an accelerating `direction` kind is configured,
the warm-up count `k0` has elapsed, at least two fixed-point evaluations
exist (so at least one `(Δu, ΔFPR)` pair is in the buffer), and the
conditioning guard does not fall below the numerical floor. -/
def computeDirection (st : Settings) (oc : Oracles) (k : ℕ)
    (buffer : List (QVec × QVec)) (fpr : QVec) : ProposedDir :=
  if st.doSuperScs = false ∨ st.direction = DirectionKind.none ∨
      st.direction = DirectionKind.fpr ∨ k < st.k0 ∨ buffer = [] then
    ProposedDir.fallback (vscale (-1) fpr)
  else if |oc.condMeasure buffer| < oc.condFloor then
    ProposedDir.fallback (vscale (-1) fpr)
  else if st.direction = DirectionKind.anderson then
    ProposedDir.accelerated (oc.andersonCand buffer fpr)
  else
    ProposedDir.accelerated (oc.broydenCand buffer fpr)

/-! ## Iteration Controller -/

/-- Terminal states of the Iteration Controller (spec §4.6). -/
inductive Status where
  | solved
  | infeasible
  | unbounded
  | maxIters
  | timeLimit
  | numericalError
deriving DecidableEq

/-- Workspace of one solve (spec §3): the current iterate, the Acceleration
Buffer of `(Δu, ΔFPR)` pairs, and the iteration counter. -/
structure SolverState where
  u : QVec
  buffer : List (QVec × QVec)
  k : ℕ
deriving DecidableEq

/-- Modelled from the spec (§3): ring-buffer append — the new pair goes to
the back and the oldest entries are dropped from the front so the buffer
never exceeds the configured capacity `memory`. -/
def pushEvict (memory : ℕ) (b : List (QVec × QVec)) (p : QVec × QVec) :
    List (QVec × QVec) :=
  (b ++ [p]).drop (b.length + 1 - memory)

/-- One Fixed-Point Operator evaluation through the fallible Linear System
Solver: the iterate proposal and residual of `fixedPointStep`, or `none`
exactly when the Linear System Solver reports an unrecoverable failure. -/
def evalFpr (oc : Oracles) (u : QVec) : Option (QVec × QVec) :=
  match oc.linSolve u with
  | none => none
  | some uHalf =>
    some (fixedPointStep (fun _ => uHalf)
      (projectWithRecovery oc.newton oc.bisect) u)

/-- Modelled from the spec (§4.6, §5): one transition of the Iteration
Controller while ITERATING: check the deadline, evaluate the Fixed-Point
Operator at the current iterate, let the Convergence Monitor inspect the
current residual, obtain a direction from the Acceleration Engine, run the
Line Search, then commit the accepted iterate and append the realized
`(Δu, ΔFPR)` pair to the Acceleration Buffer.  `Except.error` carries a
terminal status paired with the flag recording whether the Linear System
Solver reported an unrecoverable failure during this iteration. -/
def nextState (st : Settings) (oc : Oracles) (s : SolverState) :
    Except (Status × Bool) SolverState :=
  if oc.timeUp s.k then Except.error (Status.timeLimit, false)
  else
    match evalFpr oc s.u with
    | none => Except.error (Status.numericalError, true)
    | some (uPlain, f0) =>
      match oc.monitor s.u f0 with
      | MonitorVerdict.solved => Except.error (Status.solved, false)
      | MonitorVerdict.infeasible => Except.error (Status.infeasible, false)
      | MonitorVerdict.unbounded => Except.error (Status.unbounded, false)
      | MonitorVerdict.go =>
        match lineSearch (evalFpr oc) st.safeguard st.ls st.alphas s.u uPlain
            (computeDirection st oc s.k s.buffer f0).dir f0 with
        | none => Except.error (Status.numericalError, true)
        | some (uNew, fNew) =>
          Except.ok
            { u := uNew
              buffer := pushEvict st.memory s.buffer
                (vsub uNew s.u, vsub fNew f0)
              k := s.k + 1 }

/-- Modelled from the spec (§4.6): the controller loop; the fuel is the
remaining iteration budget and exhausting it yields MAX_ITERS.  Returns the
final status together with the linear-solver-failure flag. -/
def runLoop (st : Settings) (oc : Oracles) : ℕ → SolverState → Status × Bool
  | 0, _ => (Status.maxIters, false)
  | fuel + 1, s =>
    match nextState st oc s with
    | Except.error r => r
    | Except.ok s' => runLoop st oc fuel s'

/-- A full solve from the initial iterate `u0`. -/
def runSolve (st : Settings) (oc : Oracles) (u0 : QVec) : Status × Bool :=
  runLoop st oc st.maxIters { u := u0, buffer := [], k := 0 }

/-- The workspace after `n` committed iterations from a given state
(`none` if the solve terminated in fewer than `n` iterations). -/
def stateAfter (st : Settings) (oc : Oracles) :
    ℕ → SolverState → Option SolverState
  | 0, s => some s
  | n + 1, s =>
    match nextState st oc s with
    | Except.error _ => Option.none
    | Except.ok s' => stateAfter st oc n s'

/-- Concrete benign collaborators used to exercise the controller on
explicit inputs: the linear solver and Newton oracle are total. -/
def ocId : Oracles where
  linSolve := fun v => some v
  newton := fun v => some v
  bisect := fun v => v
  andersonCand := fun _ f => f
  broydenCand := fun _ f => f
  condMeasure := fun _ => 1
  condFloor := 0
  monitor := fun _ _ => MonitorVerdict.go
  timeUp := fun _ => false

/-- Concrete settings used to exercise the controller on explicit inputs. -/
def stDemo : Settings where
  eps := 1/1000
  memory := 2
  direction := DirectionKind.broyden
  k0 := 5
  ls := 1
  maxIters := 3
  doSuperScs := true
  safeguard := 1/2
  alphas := [1]

/-! ## Notebook: multiple-shooting decision-variable struct -/

/-- One `entry` of the notebook's `struct_symMX` call: a name, a repeat
count, and the scalar size of each repeated element
(`struct(["p","q","c"])` has size 3; a plain entry has size 1). -/
structure StructEntry where
  entryName : String
  repeatCount : ℕ
  elemSize : ℕ
deriving DecidableEq

/-- Scalar size contributed by one entry: repeat count times element size. -/
def StructEntry.size (e : StructEntry) : ℕ := e.repeatCount * e.elemSize

/-- Total scalar size of a `struct_symMX` built from a list of entries. -/
def structTotalSize (es : List StructEntry) : ℕ :=
  (es.map StructEntry.size).sum

/-- The shape of the symbolic struct: a column vector `(total, 1)`. -/
def structShape (es : List StructEntry) : ℕ × ℕ := (structTotalSize es, 1)

/-- The notebook's decision-variable struct:
`X = struct_symMX([(entry("x", repeat=N+1, struct=struct(["p","q","c"])),
entry("u", repeat=N))])`. -/
def demoX (N : ℕ) : List StructEntry :=
  [⟨"x", N + 1, 3⟩, ⟨"u", N, 1⟩]

/-! ## Notebook: bound setup (lbx/ubx) -/

/-- A bound entry of the notebook's `lbx`/`ubx` structured vectors: minus
infinity, plus infinity, or a finite value. -/
inductive BVal where
  | negInf
  | posInf
  | val (q : ℚ)
deriving DecidableEq

/-- The notebook's structured bound vector for horizon `N`: a state block
`x` of `N+1` stages with 3 components (the fields p, q, c) and a control
block `u` of `N` entries. -/
structure Bounds (N : ℕ) where
  x : Fin (N + 1) → Fin 3 → BVal
  u : Fin N → BVal

/-- `X(v)`: fill every entry with `v`. -/
def Bounds.fill (N : ℕ) (v : BVal) : Bounds N :=
  { x := fun _ _ => v, u := fun _ => v }

/-- `b["u", :] = v`: assign every control entry. -/
def Bounds.setAllU {N : ℕ} (b : Bounds N) (v : BVal) : Bounds N :=
  { b with u := fun _ => v }

/-- `b["x", k] = xs`: assign the 3 state components of stage `k`. -/
def Bounds.setX {N : ℕ} (b : Bounds N) (k : Fin (N + 1)) (xs : Fin 3 → ℚ) :
    Bounds N :=
  { b with x := fun i j => if i = k then BVal.val (xs j) else b.x i j }

/-- The notebook's initial state `x0 = DM([0, 1, 0])`. -/
def x0vals : Fin 3 → ℚ := ![0, 1, 0]

/-- The notebook's lower-bound setup: `lbx = X(-inf)`, then
`lbx["u", :] = -1`, then `lbx["x", 0] = x0`. -/
def demoLbx (N : ℕ) : Bounds N :=
  ((Bounds.fill N BVal.negInf).setAllU (BVal.val (-1))).setX 0 x0vals

/-- The notebook's upper-bound setup: `ubx = X(inf)`, then
`ubx["u", :] = 1`, then `ubx["x", 0] = x0`. -/
def demoUbx (N : ℕ) : Bounds N :=
  ((Bounds.fill N BVal.posInf).setAllU (BVal.val 1)).setX 0 x0vals

/-! ## Cone Projector -/

/-- The real Euclidean space of dimension `d`, ambient space of one cone
block. -/
abbrev Esp (d : ℕ) := EuclideanSpace ℝ (Fin d)

/-- Modelled from the spec: the cone projector source is not under `src/`
and the spec fixes its contract as Euclidean projection (spec §4.1).
`projOnto S x` is the closest point of `S` to `x`, from the Hilbert-space
projection theorem, defined whenever `S` is nonempty, closed and convex
(the identity otherwise — a case no cone block reaches). -/
noncomputable def projOnto {d : ℕ} (S : Set (Esp d)) (x : Esp d) : Esp d :=
  @dite _ (S.Nonempty ∧ IsClosed S ∧ Convex ℝ S) (Classical.dec _)
    (fun h => Classical.choose (exists_norm_eq_iInf_of_complete_convex h.1
      h.2.1.isComplete h.2.2 x))
    (fun _ => x)

/-- The cone kinds of the embedding's cone product (spec §3), each carrying
its dimension data. -/
inductive Cone where
  | zero (d : ℕ)
  | nonneg (d : ℕ)
  | secondOrder (d : ℕ)
  | psd (d : ℕ)
  | exponential
  | power (a : ℝ)
  | dualExponential
  | dualPower (a : ℝ)

/-- Ambient dimension of one cone block (a second-order block `(t, v)` has
one scale component plus `d` vector components; a PSD block is a vectorized
`d × d` symmetric matrix; exponential/power blocks are 3-dimensional). -/
def Cone.dim : Cone → ℕ
  | zero d => d
  | nonneg d => d
  | secondOrder d => d + 1
  | psd d => d * d
  | exponential => 3
  | power _ => 3
  | dualExponential => 3
  | dualPower _ => 3

/-- The second-order-cone region `{(t, v) : ‖v‖ ≤ t}`. -/
def socSet (d : ℕ) : Set (Esp (d + 1)) :=
  {p | Real.sqrt (∑ i : Fin d, p i.succ ^ 2) ≤ p 0}

/-- The positive-semidefinite region of a vectorized `d × d` matrix: every
quadratic form is nonnegative. -/
def psdSet (d : ℕ) : Set (Esp (d * d)) :=
  {p | ∀ v : Fin d → ℝ, 0 ≤ ∑ i : Fin d, ∑ j : Fin d,
    v i * p (finProdFinEquiv (i, j)) * v j}

/-- The exponential-cone generator region
`{(x, y, z) : y > 0, y·e^(x/y) ≤ z}`. -/
def expSet : Set (Esp 3) :=
  {p | 0 < p 1 ∧ p 1 * Real.exp (p 0 / p 1) ≤ p 2}

/-- The power-cone generator region
`{(x, y, z) : x ≥ 0, y ≥ 0, |z| ≤ x^a · y^(1-a)}`. -/
def powSet (a : ℝ) : Set (Esp 3) :=
  {p | 0 ≤ p 0 ∧ 0 ≤ p 1 ∧ |p 2| ≤ p 0 ^ a * p 1 ^ (1 - a)}

/-- The dual cone of a region of the 3-dimensional embedding space. -/
def dualSet (S : Set (Esp 3)) : Set (Esp 3) :=
  {q | ∀ p ∈ S, 0 ≤ ∑ i : Fin 3, p i * q i}

/-- The standard generator region of each cone kind. -/
def Cone.genSet : (c : Cone) → Set (Esp c.dim)
  | Cone.zero _ => {0}
  | Cone.nonneg _ => {p | ∀ i, 0 ≤ p i}
  | Cone.secondOrder d => socSet d
  | Cone.psd d => psdSet d
  | Cone.exponential => expSet
  | Cone.power a => powSet a
  | Cone.dualExponential => dualSet expSet
  | Cone.dualPower a => dualSet (powSet a)

/-- The member set of one cone block: the closed convex hull of its
generator region.  For the polyhedral/second-order/PSD/dual kinds the
generator is already a closed convex cone, so this coincides with it; the
exponential and power cones are by definition the closures of their
generator regions. -/
def Cone.set (c : Cone) : Set (Esp c.dim) :=
  closure (convexHull ℝ c.genSet)

/-- Projection of one block: Euclidean projection onto the block's cone
(spec §4.1 contract; the spec's per-block algorithms — closed forms,
eigen-decomposition, capped Newton with bisection fallback — are
implementation devices for this same map and are absent from `src/`). -/
noncomputable def Cone.project (c : Cone) (x : Esp c.dim) : Esp c.dim :=
  projOnto c.set x

/-- An ordered cone product (spec §3). -/
abbrev ConeProduct := List Cone

/-- Total dimension of a cone product: the sum of its block dimensions. -/
def ConeProduct.dim (cp : ConeProduct) : ℕ := (cp.map Cone.dim).sum

/-- The product space, block by block. -/
def ConeProduct.Space (cp : ConeProduct) : Type :=
  (i : Fin cp.length) → Esp (cp.get i).dim

/-- Modelled from the spec (§4.1): block-wise independent projection onto
the cone product (blocks do not interact). -/
noncomputable def ConeProduct.project (cp : ConeProduct) (x : cp.Space) :
    cp.Space :=
  fun i => (cp.get i).project (x i)

/-! ## Theorems -/

theorem vsub_vadd_vsub_cancel (u h c : QVec) (hh : h.length = u.length)
    (hc : c.length = u.length) :
    vsub u (vadd (vsub u h) c) = vsub h c := by
  induction u generalizing h c with
  | nil =>
    cases h with
    | nil =>
      cases c with
      | nil => rfl
      | cons d c => simp at hc
    | cons b h => simp at hh
  | cons a u ih =>
    cases h with
    | nil => simp at hh
    | cons b h =>
      cases c with
      | nil => simp at hc
      | cons d c =>
        simp only [List.length_cons, Nat.succ.injEq] at hh hc
        simp only [vsub, vadd, List.zipWith_cons_cons, List.cons.injEq]
        exact ⟨by ring, ih h c hh hc⟩

/-- **C1.** For every iterate `u`, the Fixed-Point Operator's two stated
descriptions of the fixed-point residual agree: the returned
`FPR(u) = u_half − u_cone` equals `u − R(u)` where `R(u) = u − u_half + u_cone`
is the returned iterate proposal (given that the linear solver and the cone
projector preserve the iterate dimension). -/
theorem fixedPointStep_fpr_eq_sub (linSolve proj : QVec → QVec) (u : QVec)
    (h1 : (linSolve u).length = u.length)
    (h2 : ∀ v, (proj v).length = v.length) :
    (fixedPointStep linSolve proj u).2 =
      vsub u (fixedPointStep linSolve proj u).1 := by
  simp only [fixedPointStep]
  refine (vsub_vadd_vsub_cancel u (linSolve u) _ h1 ?_).symm
  simp [vsub, vadd, h2, h1]

/-- Witness for C1 at a concrete input. -/
theorem fixedPointStep_fpr_eq_sub_witness :
    (fixedPointStep (fun v => v) (fun v => v) [1, 2]).2 =
      vsub [1, 2] (fixedPointStep (fun v => v) (fun v => v) [1, 2]).1 :=
  fixedPointStep_fpr_eq_sub (fun v => v) (fun v => v) [1, 2] rfl (fun _ => rfl)

theorem lsLoop_pass (F : QVec → Option (QVec × QVec)) (c m0 : ℚ) (u d : QVec) :
    ∀ (as : List ℚ) (t ft : QVec),
      lsLoop F c m0 u d as = some (some (t, ft)) → sqNorm ft ≤ c * m0 := by
  intro as
  induction as with
  | nil => intro t ft h; simp [lsLoop] at h
  | cons a rest ih =>
    intro t ft h
    rw [lsLoop] at h
    split at h
    · simp at h
    · next fst ft' hF =>
        split at h
        · next hp =>
            obtain ⟨rfl, rfl⟩ : vadd u (vscale a d) = t ∧ ft' = ft := by
              simpa using h
            exact hp
        · exact ih t ft h

theorem lsLoop_allFail (F : QVec → Option (QVec × QVec)) (c m0 : ℚ) (u d : QVec) :
    ∀ as : List ℚ,
      (∀ t ∈ trialPoints u d as, ∀ r, F t = some r → ¬ sqNorm r.2 ≤ c * m0) →
      lsLoop F c m0 u d as = none ∨ lsLoop F c m0 u d as = some none := by
  intro as
  induction as with
  | nil => intro _; right; rfl
  | cons a rest ih =>
    intro hall
    rw [lsLoop]
    split
    · left; rfl
    · next fst ft hF =>
        have hmem : vadd u (vscale a d) ∈ trialPoints u d (a :: rest) := by
          simp [trialPoints]
        have hp : ¬ sqNorm ft ≤ c * m0 := by
          simpa using hall _ hmem (fst, ft) hF
        rw [if_neg hp]
        refine ih (fun t ht r' hr' => hall t ?_ r' hr')
        simp only [trialPoints, List.map_cons, List.mem_cons] at ht ⊢
        exact Or.inr ht

theorem acceptPlain_eq (F : QVec → Option (QVec × QVec)) (uPlain acc facc : QVec)
    (h : acceptPlain F uPlain = some (acc, facc)) : acc = uPlain := by
  unfold acceptPlain at h
  split at h
  · simp at h
  · obtain ⟨rfl, rfl⟩ : uPlain = acc ∧ _ = facc := by simpa using h
    rfl

/-- **C2 (amended).** The step accepted by the Line Search either satisfies
the sufficient-decrease test relative to the residual at the start of the
iteration (merit at most `c` times the start merit) or is exactly the
unmodified plain fixed-point step; in particular when no trial among the at
most `ls` trials passes the test, the accepted step is exactly the plain
fixed-point step. -/
theorem lineSearch_safeguard (F : QVec → Option (QVec × QVec)) (c : ℚ)
    (ls : ℕ) (alphas : List ℚ) (u uPlain d f0 acc facc : QVec)
    (hacc : lineSearch F c ls alphas u uPlain d f0 = some (acc, facc)) :
    (sqNorm facc ≤ c * sqNorm f0 ∨ acc = uPlain) ∧
    ((∀ t ∈ trialPoints u d (alphas.take ls), ∀ r, F t = some r →
        ¬ sqNorm r.2 ≤ c * sqNorm f0) → acc = uPlain) := by
  constructor
  · rw [lineSearch] at hacc
    split at hacc
    · simp at hacc
    · next acc' hl =>
        left
        obtain rfl : acc' = (acc, facc) := by simpa using hacc
        exact lsLoop_pass F c (sqNorm f0) u d (alphas.take ls) acc facc hl
    · right
      exact acceptPlain_eq F uPlain acc facc hacc
  · intro hall
    rw [lineSearch] at hacc
    rcases lsLoop_allFail F c (sqNorm f0) u d (alphas.take ls) hall with h | h
    · rw [h] at hacc; simp at hacc
    · rw [h] at hacc
      exact acceptPlain_eq F uPlain acc facc hacc

/-- Witness for the amended C2 at a concrete input: with an oracle whose
residual merit (4) never passes the test, the accepted step is the plain
step `[9]` with its residual `[2]`. -/
theorem lineSearch_safeguard_witness :
    (sqNorm ([2] : QVec) ≤ (1/2 : ℚ) * sqNorm ([1] : QVec) ∨
      ([9] : QVec) = [9]) ∧
    ((∀ t ∈ trialPoints [0] [1] (([1] : List ℚ).take 1), ∀ r,
        (fun _ => some (([0] : QVec), ([2] : QVec))) t = some r →
        ¬ sqNorm r.2 ≤ (1/2 : ℚ) * sqNorm ([1] : QVec)) →
      ([9] : QVec) = [9]) :=
  lineSearch_safeguard (fun _ => some ([0], [2])) (1/2) 1 [1] [0] [9] [1] [1]
    [9] [2] (by norm_num [lineSearch, lsLoop, acceptPlain, sqNorm, vadd, vscale])

/-- **C2 (counterexample).** The claim "the accepted step's merit is at most
the merit at the plain fixed-point step" fails: on this concrete input the
line search accepts the trial `[1]` with residual `[7/10]` (it passes the
sufficient-decrease test against the start residual `[1]` with safeguard
`1/2`), yet the plain step `[9]` has the strictly smaller residual `[1/10]`. -/
theorem lineSearch_merit_counterexample :
    lineSearch lsDemoF (1/2) 1 [1] [0] [9] [1] [1] = some ([1], [7/10]) ∧
    lsDemoF [9] = some ([0], [1/10]) ∧
    ¬ sqNorm ([7/10] : QVec) ≤ sqNorm ([1/10] : QVec) := by
  norm_num [lineSearch, lsLoop, acceptPlain, lsDemoF, sqNorm, vadd, vscale]

theorem lsLoop_isSome (F : QVec → Option (QVec × QVec)) (c m0 : ℚ) (u d : QVec)
    (hF : ∀ t, (F t).isSome) :
    ∀ as : List ℚ, (lsLoop F c m0 u d as).isSome := by
  intro as
  induction as with
  | nil => rfl
  | cons a rest ih =>
    rw [lsLoop]
    split
    · next h => have h2 := hF (vadd u (vscale a d)); rw [h] at h2; simp at h2
    · split
      · rfl
      · exact ih

theorem acceptPlain_isSome (F : QVec → Option (QVec × QVec)) (uPlain : QVec)
    (hF : ∀ t, (F t).isSome) : (acceptPlain F uPlain).isSome := by
  rw [acceptPlain]
  split
  · next h => have h2 := hF uPlain; rw [h] at h2; simp at h2
  · rfl

theorem lineSearch_isSome (F : QVec → Option (QVec × QVec)) (c : ℚ) (ls : ℕ)
    (alphas : List ℚ) (u uPlain d f0 : QVec) (hF : ∀ t, (F t).isSome) :
    (lineSearch F c ls alphas u uPlain d f0).isSome := by
  rw [lineSearch]
  split
  · next h =>
      have h2 := lsLoop_isSome F c (sqNorm f0) u d hF (alphas.take ls)
      rw [h] at h2
      simp at h2
  · rfl
  · exact acceptPlain_isSome F uPlain hF

theorem evalFpr_isSome (oc : Oracles) (u : QVec)
    (htot : ∀ v, (oc.linSolve v).isSome) : (evalFpr oc u).isSome := by
  rw [evalFpr]
  split
  · next h => have h2 := htot u; rw [h] at h2; simp at h2
  · rfl

theorem nextState_flag (st : Settings) (oc : Oracles) (s : SolverState)
    (stat : Status) (flag : Bool)
    (h : nextState st oc s = Except.error (stat, flag)) :
    stat = Status.numericalError ↔ flag = true := by
  rw [nextState] at h
  split at h
  · obtain ⟨rfl, rfl⟩ : Status.timeLimit = stat ∧ false = flag := by simpa using h
    simp
  · split at h
    · obtain ⟨rfl, rfl⟩ : Status.numericalError = stat ∧ true = flag := by
        simpa using h
      simp
    · split at h
      · obtain ⟨rfl, rfl⟩ : Status.solved = stat ∧ false = flag := by simpa using h
        simp
      · obtain ⟨rfl, rfl⟩ : Status.infeasible = stat ∧ false = flag := by
          simpa using h
        simp
      · obtain ⟨rfl, rfl⟩ : Status.unbounded = stat ∧ false = flag := by
          simpa using h
        simp
      · split at h
        · obtain ⟨rfl, rfl⟩ : Status.numericalError = stat ∧ true = flag := by
            simpa using h
          simp
        · simp at h

theorem nextState_total (st : Settings) (oc : Oracles) (s : SolverState)
    (stat : Status) (flag : Bool) (htot : ∀ v, (oc.linSolve v).isSome)
    (h : nextState st oc s = Except.error (stat, flag)) : flag = false := by
  rw [nextState] at h
  split at h
  · obtain ⟨rfl, rfl⟩ : Status.timeLimit = stat ∧ false = flag := by simpa using h
    rfl
  · split at h
    · next heq =>
        have h2 := evalFpr_isSome oc s.u htot
        rw [heq] at h2
        simp at h2
    · next uPlain f0 heqE =>
        split at h
        · obtain ⟨rfl, rfl⟩ : Status.solved = stat ∧ false = flag := by
            simpa using h
          rfl
        · obtain ⟨rfl, rfl⟩ : Status.infeasible = stat ∧ false = flag := by
            simpa using h
          rfl
        · obtain ⟨rfl, rfl⟩ : Status.unbounded = stat ∧ false = flag := by
            simpa using h
          rfl
        · split at h
          · next heq =>
              have h2 := lineSearch_isSome (evalFpr oc) st.safeguard st.ls
                st.alphas s.u uPlain
                (computeDirection st oc s.k s.buffer f0).dir f0
                (fun t => evalFpr_isSome oc t htot)
              rw [heq] at h2
              simp at h2
          · simp at h

/-- **C4.** A solve terminates with status NUMERICAL_ERROR if and only if the
Linear System Solver reported an unrecoverable failure to factor/solve during
the run (the returned flag records exactly that event); in particular, for
every behaviour of the cone-projection Newton oracle (recovered by the
bisection fallback) and of the acceleration conditioning measure (recovered
by the fallback direction), a total linear solver makes NUMERICAL_ERROR
impossible. -/
theorem solve_numericalError_iff (st : Settings) (oc : Oracles) :
    ∀ (fuel : ℕ) (s : SolverState),
      ((runLoop st oc fuel s).1 = Status.numericalError ↔
        (runLoop st oc fuel s).2 = true) ∧
      ((∀ v, (oc.linSolve v).isSome) →
        (runLoop st oc fuel s).1 ≠ Status.numericalError) := by
  intro fuel
  induction fuel with
  | zero =>
    intro s
    constructor
    · simp [runLoop]
    · intro _
      simp [runLoop]
  | succ fuel ih =>
    intro s
    cases h : nextState st oc s with
    | error r =>
      obtain ⟨stat, flag⟩ := r
      have h1 : runLoop st oc (fuel + 1) s = (stat, flag) := by rw [runLoop, h]
      rw [h1]
      refine ⟨nextState_flag st oc s stat flag h, fun htot hne => ?_⟩
      have hf : flag = false := nextState_total st oc s stat flag htot h
      have ht : flag = true := (nextState_flag st oc s stat flag h).mp hne
      rw [hf] at ht
      exact Bool.false_ne_true ht
    | ok s' =>
      have h1 : runLoop st oc (fuel + 1) s = runLoop st oc fuel s' := by
        rw [runLoop, h]
      rw [h1]
      exact ih s'

/-- Witness for C4 at concrete settings, collaborators and initial state,
with a total linear solver. -/
theorem solve_numericalError_iff_witness :
    ((runLoop stDemo ocId 2 { u := [1], buffer := [], k := 0 }).1 =
        Status.numericalError ↔
      (runLoop stDemo ocId 2 { u := [1], buffer := [], k := 0 }).2 = true) ∧
    (runLoop stDemo ocId 2 { u := [1], buffer := [], k := 0 }).1 ≠
      Status.numericalError :=
  ⟨(solve_numericalError_iff stDemo ocId 2 { u := [1], buffer := [], k := 0 }).1,
   (solve_numericalError_iff stDemo ocId 2 { u := [1], buffer := [], k := 0 }).2
     (fun _ => rfl)⟩

theorem pushEvict_length (m : ℕ) (b : List (QVec × QVec)) (p : QVec × QVec) :
    (pushEvict m b p).length = min m (b.length + 1) := by
  simp only [pushEvict, List.length_drop, List.length_append,
    List.length_singleton]
  omega

theorem pushEvict_le (m : ℕ) (b : List (QVec × QVec)) (p : QVec × QVec) :
    (pushEvict m b p).length ≤ m := by
  rw [pushEvict_length]
  omega

theorem nextState_ok_buffer (st : Settings) (oc : Oracles) (s s' : SolverState)
    (h : nextState st oc s = Except.ok s') :
    ∃ p, s'.buffer = pushEvict st.memory s.buffer p := by
  rw [nextState] at h
  split at h
  · simp at h
  · split at h
    · simp at h
    · next uPlain f0 heqE =>
        split at h
        · simp at h
        · simp at h
        · simp at h
        · split at h
          · simp at h
          · next uNew fNew heqL =>
              refine ⟨(vsub uNew s.u, vsub fNew f0), ?_⟩
              obtain rfl :
                  ({ u := uNew
                     buffer := pushEvict st.memory s.buffer
                       (vsub uNew s.u, vsub fNew f0)
                     k := s.k + 1 } : SolverState) = s' := by
                simpa using h
              rfl

theorem stateAfter_buffer_le (st : Settings) (oc : Oracles) :
    ∀ (n : ℕ) (s0 s : SolverState), s0.buffer.length ≤ st.memory →
      stateAfter st oc n s0 = some s → s.buffer.length ≤ st.memory := by
  intro n
  induction n with
  | zero =>
    intro s0 s h0 h
    obtain rfl : s0 = s := by simpa [stateAfter] using h
    exact h0
  | succ n ih =>
    intro s0 s h0 h
    rw [stateAfter] at h
    split at h
    · simp at h
    · next s1 hstep =>
        obtain ⟨p, hp⟩ := nextState_ok_buffer st oc s0 s1 hstep
        exact ih s1 s (by rw [hp]; exact pushEvict_le _ _ _) h

theorem pushEvict_foldl (m : ℕ) :
    ∀ (ps b : List (QVec × QVec)), b.length ≤ m →
      List.foldl (pushEvict m) b ps =
        (b ++ ps).drop (b.length + ps.length - m) := by
  intro ps
  induction ps with
  | nil =>
    intro b hb
    have h0 : b.length + ([] : List (QVec × QVec)).length - m = 0 := by
      simp
      omega
    rw [List.foldl_nil, h0, List.append_nil, List.drop_zero]
  | cons p ps ih =>
    intro b hb
    rw [List.foldl_cons, ih (pushEvict m b p) (pushEvict_le m b p),
      pushEvict_length]
    simp only [pushEvict]
    rw [← List.drop_append_of_le_length (by simp)]
    rw [List.drop_drop]
    have harr : b ++ [p] ++ ps = b ++ p :: ps := by simp
    rw [harr]
    simp only [List.length_cons]
    congr 1
    omega

/-- **C6.** The Acceleration Buffer never exceeds the configured `memory`
at any reachable workspace of a solve whose initial buffer is within
capacity; each committed iteration appends exactly one realized pair
through the evicting ring-buffer append; and after `memory + 1`
consecutive appends since the last clear the oldest entry has been
evicted. -/
theorem accelerationBuffer_bound (st : Settings) (oc : Oracles) :
    (∀ (n : ℕ) (s0 s : SolverState), s0.buffer.length ≤ st.memory →
        stateAfter st oc n s0 = some s → s.buffer.length ≤ st.memory) ∧
    (∀ s s' : SolverState, nextState st oc s = Except.ok s' →
        ∃ p, s'.buffer = pushEvict st.memory s.buffer p) ∧
    (∀ ps : List (QVec × QVec), ps.length = st.memory + 1 →
        List.foldl (pushEvict st.memory) [] ps = ps.drop 1) := by
  refine ⟨stateAfter_buffer_le st oc, nextState_ok_buffer st oc,
    fun ps hps => ?_⟩
  have h1 := pushEvict_foldl st.memory ps [] (by simp)
  simp only [List.nil_append, List.length_nil, Nat.zero_add] at h1
  rw [h1, hps]
  congr 1
  omega

/-- Witness for C6 at concrete inputs: one committed iteration of the
controller from an empty buffer, a single-step append, and a three-element
append sequence at `memory = 2`. -/
theorem accelerationBuffer_bound_witness :
    ((SolverState.mk [1] [([0], [0])] 1).buffer.length ≤ stDemo.memory) ∧
    (∃ p, (SolverState.mk [1] [([0], [0])] 1).buffer =
        pushEvict stDemo.memory ([] : List (QVec × QVec)) p) ∧
    List.foldl (pushEvict stDemo.memory) []
        [([1], [1]), ([2], [2]), ([3], [3])] =
      ([([1], [1]), ([2], [2]), ([3], [3])] :
        List (QVec × QVec)).drop 1 :=
  ⟨(accelerationBuffer_bound stDemo ocId).1 1 (SolverState.mk [1] [] 0)
      (SolverState.mk [1] [([0], [0])] 1) (by simp [stDemo])
      (by norm_num [stateAfter, nextState, evalFpr, fixedPointStep,
        projectWithRecovery, computeDirection, lineSearch, lsLoop,
        acceptPlain, pushEvict, sqNorm, vadd, vsub, vscale, ProposedDir.dir, stDemo, ocId]),
   (accelerationBuffer_bound stDemo ocId).2.1 (SolverState.mk [1] [] 0)
      (SolverState.mk [1] [([0], [0])] 1)
      (by norm_num [nextState, evalFpr, fixedPointStep,
        projectWithRecovery, computeDirection, lineSearch, lsLoop,
        acceptPlain, pushEvict, sqNorm, vadd, vsub, vscale, ProposedDir.dir, stDemo, ocId]),
   (accelerationBuffer_bound stDemo ocId).2.2
      [([1], [1]), ([2], [2]), ([3], [3])] (by simp [stDemo])⟩

/-- **C7.** The Acceleration Engine never proposes a non-fallback
(accelerated) direction before the warm-up count `k0` has elapsed or while
no `(Δu, ΔFPR)` pair exists yet (fewer than two fixed-point evaluations);
in particular, with `k0 = 5` no non-fallback direction is proposed at any
iteration index below 5. -/
theorem accelerationEngine_warmup (st : Settings) (oc : Oracles) :
    (∀ (k : ℕ) (buffer : List (QVec × QVec)) (fpr : QVec),
        k < st.k0 ∨ buffer = [] →
        (computeDirection st oc k buffer fpr).isFallback = true) ∧
    (st.k0 = 5 → ∀ (k : ℕ) (buffer : List (QVec × QVec)) (fpr : QVec),
        k < 5 → (computeDirection st oc k buffer fpr).isFallback = true) := by
  have hmain : ∀ (k : ℕ) (buffer : List (QVec × QVec)) (fpr : QVec),
      k < st.k0 ∨ buffer = [] →
      (computeDirection st oc k buffer fpr).isFallback = true := by
    intro k buffer fpr h
    have hcond : st.doSuperScs = false ∨ st.direction = DirectionKind.none ∨
        st.direction = DirectionKind.fpr ∨ k < st.k0 ∨ buffer = [] := by
      tauto
    rw [computeDirection, if_pos hcond]
    rfl
  exact ⟨hmain, fun h5 k buffer fpr hk =>
    hmain k buffer fpr (Or.inl (by omega))⟩

/-- Witness for C7 at concrete inputs: with `k0 = 5`, both an empty buffer
at iteration 3 and a nonempty buffer at iteration 4 yield the fallback. -/
theorem accelerationEngine_warmup_witness :
    (computeDirection stDemo ocId 3 [] [1]).isFallback = true ∧
    (computeDirection stDemo ocId 4 [([1], [1])] [1]).isFallback = true :=
  ⟨(accelerationEngine_warmup stDemo ocId).1 3 [] [1] (Or.inr rfl),
   (accelerationEngine_warmup stDemo ocId).2 rfl 4 [([1], [1])] [1]
     (by norm_num)⟩

/-- **C8.** The `direction` option recognizes exactly the four values
none, fpr, anderson, broyden, and each value selects the corresponding
Acceleration Engine strategy: `none` and `fpr` always produce the plain
fixed-point-residual (fallback) direction, while `anderson` and `broyden`
produce the Anderson resp. restarted-Broyden candidate once acceleration is
enabled, warm-up has elapsed, history exists and the conditioning guard
passes. -/
theorem direction_option_spec (st : Settings) (oc : Oracles) :
    (∀ s : String, (parseDirection s).isSome = true ↔
        s ∈ ["none", "fpr", "anderson", "broyden"]) ∧
    (∀ (k : ℕ) (buffer : List (QVec × QVec)) (fpr : QVec),
      (st.direction = DirectionKind.none →
          computeDirection st oc k buffer fpr =
            ProposedDir.fallback (vscale (-1) fpr)) ∧
      (st.direction = DirectionKind.fpr →
          computeDirection st oc k buffer fpr =
            ProposedDir.fallback (vscale (-1) fpr)) ∧
      (st.doSuperScs = true → st.k0 ≤ k → buffer ≠ [] →
          ¬ |oc.condMeasure buffer| < oc.condFloor →
        (st.direction = DirectionKind.anderson →
            computeDirection st oc k buffer fpr =
              ProposedDir.accelerated (oc.andersonCand buffer fpr)) ∧
        (st.direction = DirectionKind.broyden →
            computeDirection st oc k buffer fpr =
              ProposedDir.accelerated (oc.broydenCand buffer fpr)))) := by
  constructor
  · intro s
    rw [parseDirection]
    split_ifs with h1 h2 h3 h4
    · simp [h1]
    · simp [h2]
    · simp [h3]
    · simp [h4]
    · simp [h1, h2, h3, h4]
  · intro k buffer fpr
    have hfall : ∀ _ : st.doSuperScs = false ∨
        st.direction = DirectionKind.none ∨
        st.direction = DirectionKind.fpr ∨ k < st.k0 ∨ buffer = [],
        computeDirection st oc k buffer fpr =
          ProposedDir.fallback (vscale (-1) fpr) := by
      intro hdisj
      rw [computeDirection, if_pos hdisj]
    refine ⟨fun hdir => hfall (Or.inr (Or.inl hdir)),
      fun hdir => hfall (Or.inr (Or.inr (Or.inl hdir))),
      fun hss hk hb hcondOk => ?_⟩
    have hcond : ∀ _ : st.direction = DirectionKind.anderson ∨
        st.direction = DirectionKind.broyden,
        ¬ (st.doSuperScs = false ∨ st.direction = DirectionKind.none ∨
          st.direction = DirectionKind.fpr ∨ k < st.k0 ∨ buffer = []) := by
      intro hd hor
      rcases hor with h | h | h | h | h
      · rw [hss] at h
        simp at h
      · rcases hd with hd | hd <;> rw [hd] at h <;> simp at h
      · rcases hd with hd | hd <;> rw [hd] at h <;> simp at h
      · omega
      · exact hb h
    constructor
    · intro hdir
      rw [computeDirection, if_neg (hcond (Or.inl hdir)), if_neg hcondOk,
        if_pos hdir]
    · intro hdir
      have hnand : ¬ st.direction = DirectionKind.anderson := by
        rw [hdir]
        simp
      rw [computeDirection, if_neg (hcond (Or.inr hdir)), if_neg hcondOk,
        if_neg hnand]

/-- Witness for C8 at concrete inputs: `"anderson"` is recognized, and with
the concrete broyden-configured settings and all guards passing, the engine
proposes the Broyden candidate. -/
theorem direction_option_spec_witness :
    ((parseDirection "anderson").isSome = true ↔
      "anderson" ∈ ["none", "fpr", "anderson", "broyden"]) ∧
    computeDirection stDemo ocId 7 [([1], [1])] [1] =
      ProposedDir.accelerated (ocId.broydenCand [([1], [1])] [1]) :=
  ⟨(direction_option_spec stDemo ocId).1 "anderson",
   (((direction_option_spec stDemo ocId).2 7 [([1], [1])] [1]).2.2 rfl
      (by norm_num [stDemo]) (by simp) (by norm_num [ocId])).2 rfl⟩

/-- **C9.** The notebook's decision-variable struct `X`, built from `N+1`
state entries of dimension 3 (fields p, q, c) and `N` control entries, has
total dimension `(N+1)*3 + N`; for the notebook's `N = 20`, `X.shape`
equals `(83, 1)`. -/
theorem demoX_shape :
    (∀ N : ℕ, structTotalSize (demoX N) = (N + 1) * 3 + N) ∧
    structShape (demoX 20) = (83, 1) := by
  constructor
  · intro N
    simp [structTotalSize, demoX, StructEntry.size]
  · simp [structShape, structTotalSize, demoX, StructEntry.size]

/-- **C10.** After the notebook's bound setup, every control entry of `lbx`
equals −1 and of `ubx` equals 1, both stage-0 state bounds equal
`x0 = [0, 1, 0]`, and every other entry is unchanged: −inf in `lbx` and
+inf in `ubx` for all state entries of stages 1 through N. -/
theorem demoBounds_spec (N : ℕ) :
    (∀ i : Fin N, (demoLbx N).u i = BVal.val (-1) ∧
        (demoUbx N).u i = BVal.val 1) ∧
    (∀ j : Fin 3, (demoLbx N).x 0 j = BVal.val (x0vals j) ∧
        (demoUbx N).x 0 j = BVal.val (x0vals j)) ∧
    (∀ (k : Fin N) (j : Fin 3),
        (demoLbx N).x k.succ j = BVal.negInf ∧
        (demoUbx N).x k.succ j = BVal.posInf) := by
  refine ⟨fun i => ⟨rfl, rfl⟩, fun j => ⟨?_, ?_⟩, fun k j => ⟨?_, ?_⟩⟩
  · simp [demoLbx, Bounds.setX, Bounds.setAllU, Bounds.fill]
  · simp [demoUbx, Bounds.setX, Bounds.setAllU, Bounds.fill]
  · simp [demoLbx, Bounds.setX, Bounds.setAllU, Bounds.fill,
      Fin.succ_ne_zero]
  · simp [demoUbx, Bounds.setX, Bounds.setAllU, Bounds.fill,
      Fin.succ_ne_zero]

theorem projOnto_spec {d : ℕ} (S : Set (Esp d))
    (h : S.Nonempty ∧ IsClosed S ∧ Convex ℝ S) (x : Esp d) :
    projOnto S x ∈ S ∧ ‖x - projOnto S x‖ = ⨅ w : S, ‖x - (w : Esp d)‖ := by
  rw [projOnto, dif_pos h]
  exact Classical.choose_spec (exists_norm_eq_iInf_of_complete_convex h.1
    h.2.1.isComplete h.2.2 x)

theorem projOnto_self {d : ℕ} (S : Set (Esp d))
    (h : S.Nonempty ∧ IsClosed S ∧ Convex ℝ S) (x : Esp d) (hx : x ∈ S) :
    projOnto S x = x := by
  obtain ⟨hmem, hdist⟩ := projOnto_spec S h x
  have hbdd : BddBelow (Set.range fun w : S => ‖x - (w : Esp d)‖) := by
    refine ⟨0, ?_⟩
    rintro y ⟨w, rfl⟩
    exact norm_nonneg _
  have hle : (⨅ w : S, ‖x - (w : Esp d)‖) ≤ 0 := by
    have h0 : ‖x - ((⟨x, hx⟩ : S) : Esp d)‖ = 0 := by simp
    calc (⨅ w : S, ‖x - (w : Esp d)‖) ≤ ‖x - ((⟨x, hx⟩ : S) : Esp d)‖ :=
        ciInf_le hbdd _
      _ = 0 := h0
  have h2 : ‖x - projOnto S x‖ ≤ 0 := by rw [hdist]; exact hle
  have h3 : ‖x - projOnto S x‖ = 0 := le_antisymm h2 (norm_nonneg _)
  exact (sub_eq_zero.mp (norm_eq_zero.mp h3)).symm

theorem Cone.genSet_nonempty : ∀ c : Cone, c.genSet.Nonempty
  | Cone.zero _ => ⟨0, rfl⟩
  | Cone.nonneg _ => ⟨0, fun _ => le_refl 0⟩
  | Cone.secondOrder d => ⟨0, by
      show (0 : Esp (d + 1)) ∈ socSet d
      have hz : ∀ j : Fin (d + 1), (0 : Esp (d + 1)) j = 0 := fun _ => rfl
      simp [socSet, hz]⟩
  | Cone.psd d => ⟨0, by
      intro v
      have hz : ∀ j : Fin (d * d), (0 : Esp (d * d)) j = 0 := fun _ => rfl
      simp [hz]⟩
  | Cone.exponential => ⟨![0, 1, 1], by
      constructor
      · norm_num [show (![(0:ℝ), 1, 1] : Esp 3) 1 = 1 from rfl]
      · rw [show (![(0:ℝ), 1, 1] : Esp 3) 1 = 1 from rfl,
          show (![(0:ℝ), 1, 1] : Esp 3) 0 = 0 from rfl,
          show (![(0:ℝ), 1, 1] : Esp 3) 2 = 1 from rfl]
        norm_num⟩
  | Cone.power a => ⟨![1, 1, 0], by
      refine ⟨by norm_num [show (![(1:ℝ), 1, 0] : Esp 3) 0 = 1 from rfl],
        ?_, ?_⟩
      · norm_num [show (![(1:ℝ), 1, 0] : Esp 3) 1 = 1 from rfl]
      · rw [show (![(1:ℝ), 1, 0] : Esp 3) 0 = 1 from rfl,
          show (![(1:ℝ), 1, 0] : Esp 3) 1 = 1 from rfl,
          show (![(1:ℝ), 1, 0] : Esp 3) 2 = 0 from rfl]
        simp [Real.one_rpow]⟩
  | Cone.dualExponential => ⟨0, by
      intro p hp
      have hz : ∀ j : Fin 3, (0 : Esp 3) j = 0 := fun _ => rfl
      simp [hz]⟩
  | Cone.dualPower a => ⟨0, by
      intro p hp
      have hz : ∀ j : Fin 3, (0 : Esp 3) j = 0 := fun _ => rfl
      simp [hz]⟩

theorem Cone.set_props (c : Cone) :
    c.set.Nonempty ∧ IsClosed c.set ∧ Convex ℝ c.set := by
  refine ⟨?_, isClosed_closure, (convex_convexHull ℝ _).closure⟩
  obtain ⟨p, hp⟩ := c.genSet_nonempty
  exact ⟨p, subset_closure (subset_convexHull ℝ _ hp)⟩

theorem Cone.project_project (c : Cone) (x : Esp c.dim) :
    c.project (c.project x) = c.project x :=
  projOnto_self c.set c.set_props _ (projOnto_spec c.set c.set_props x).1

/-- **C3.** For every input vector `x` and every cone product — with every
block type among zero, nonnegative, second-order, positive-semidefinite,
exponential, power, dual-exponential and dual-power — the Cone Projector is
idempotent: `project (project x) = project x`. -/
theorem coneProjector_idempotent (cp : ConeProduct) (x : cp.Space) :
    cp.project (cp.project x) = cp.project x := by
  funext i
  exact (cp.get i).project_project (x i)
